import Mathlib

/-
  Verification development for the go-graphsync request/response engine.

  The repository material under verification is the test harness
  (impl/graphsync_test.go, testutil/testutil.go); the production core it
  exercises is not part of the source tree, so the core components
  (selector traversal engine, request manager, response manager, message
  queue, hook registry, codec) are modelled from the specification, while
  the concrete scenarios (block chains, selectors, path checks) are
  translated from the test sources.
-/

namespace Graphsync

/-- A content identifier referencing a DAG node (spec section 3, Link).
Modelled as a natural number; distinct numbers stand for distinct
content addresses. -/
abbrev Link := Nat

/-- An immutable in-memory DAG value (spec section 3, Node):
map, list, raw bytes or a link to another node. -/
inductive Node where
  | bytes (data : List Nat) : Node
  | link (l : Link) : Node
  | list (xs : List Node) : Node
  | map (entries : List (String × Node)) : Node

/-- Named opaque byte payload carried on requests and responses
(spec section 3, ExtensionData). -/
structure ExtensionData where
  name : String
  data : List Nat

/-- One unit of traversal output (spec section 3, ResponseProgress):
the node visited and its path from the traversal root. -/
structure Prog where
  path : List String
  node : Node

/-- Traversal-level errors (spec section 7): a loader miss on a branch,
or exhaustion of the step budget of the executable model. -/
inductive Err where
  | notFound (l : Link)
  | fuelOut

/-- Output of one traversal: progress entries in depth-first visitation
order, per-branch errors, and the blocks that had to be loaded through
the loader (in load order), with their contents. -/
structure WalkOut where
  prog : List Prog
  errs : List Err
  loads : List (Link × Node)

def WalkOut.empty : WalkOut := ⟨[], [], []⟩

def WalkOut.app (a b : WalkOut) : WalkOut :=
  ⟨a.prog ++ b.prog, a.errs ++ b.errs, a.loads ++ b.loads⟩

/-- Recursion limit of a recursive selector clause (source
graphsync_test.go blockChainSelector uses RecursionLimitDepth, the
UnixFS test uses RecursionLimitNone). -/
inductive RecursionLimit where
  | nolimit
  | depth (d : Nat)

/-- Modelled from the spec: the selector grammar fragment the harness
exercises (spec sections 3 and 4.1) - match a node, explore all child
edges, explore named fields, recursive exploration up to a limit, and
the recursive edge marker. -/
inductive Selector where
  | matcher
  | exploreAll (next : Selector)
  | exploreFields (fields : List (String × Selector))
  | exploreRecursive (limit : RecursionLimit) (body : Selector)
  | exploreRecursiveEdge

/-- Response status enumeration (spec section 3, ResponseStatus). -/
inductive ResponseStatus where
  | acknowledged
  | partialResponse
  | completedFull
  | partiallyCompleted
  | failed
  | cancelled
deriving DecidableEq

/-- Wire token of the modelled codec. The spec leaves bit-exactness to
the external codec, so the model serializes to a token stream. -/
inductive Token where
  | tbytes (d : List Nat)
  | tlink (l : Nat)
  | tlist (count : Nat)
  | tmap (count : Nat)
  | tkey (k : String)

/-- A request record as carried inside a wire Message (spec section 6):
RequestID, root link, encoded selector, priority and extensions. -/
structure Request where
  id : Nat
  root : Link
  encodedSelector : List Token
  priority : Nat
  extensions : List ExtensionData

/-- A response frame (spec section 6, Response record): the echoed
RequestID, a status, extensions, and the blocks carried alongside. -/
structure Frame where
  requestID : Nat
  status : ResponseStatus
  extensions : List ExtensionData
  blocks : List (Link × Node)

mutual

/-- Modelled from the spec: whether a selector clause contains the
recursive edge marker of its nearest enclosing recursive clause
(spec section 4.1, recursive edges). -/
def hasEdge : Selector → Bool
  | .exploreRecursiveEdge => true
  | .exploreAll next => hasEdge next
  | .exploreFields fs => hasEdgeFields fs
  | .exploreRecursive _ _ => false
  | .matcher => false

def hasEdgeFields : List (String × Selector) → Bool
  | [] => false
  | (_, v) :: fs => hasEdge v || hasEdgeFields fs

end

mutual

/-- Modelled from the spec: replace the recursive edge markers of the
nearest enclosing recursive clause by the given selector; an inner
recursive clause shadows its own edges. -/
def substEdge (repl : Selector) : Selector → Selector
  | .exploreRecursiveEdge => repl
  | .exploreAll next => .exploreAll (substEdge repl next)
  | .exploreFields fs => .exploreFields (substFields repl fs)
  | .exploreRecursive lim body => .exploreRecursive lim body
  | .matcher => .matcher

def substFields (repl : Selector) : List (String × Selector) → List (String × Selector)
  | [] => []
  | (k, v) :: fs => (k, substEdge repl v) :: substFields repl fs

end

/-- Field lookup inside an exploreFields clause. -/
def lookupField : List (String × Selector) → String → Option Selector
  | [], _ => none
  | (k, v) :: fs, seg => if k == seg then some v else lookupField fs seg

/-- Modelled from the spec: decrement a recursion limit when a
recursive edge is taken (spec section 4.1, recursion-limit policy);
an unbounded limit never decrements, a depth-bounded limit is
exhausted once fewer than two levels remain. -/
def decLimit : RecursionLimit → Option RecursionLimit
  | .nolimit => some .nolimit
  | .depth d => if d < 2 then none else some (.depth (d - 1))

/-- Modelled from the spec: which selector governs the child reached
through the given path segment (spec section 4.1) - the selector
evaluates which child edges it admits; a recursive clause explores
through its body, and a body result containing the recursive edge
restarts the recursion with a decremented limit, or stops recursing
(the edge degenerates to a bare match) when the limit is exhausted. -/
def explore : Selector → String → Option Selector
  | .matcher, _ => none
  | .exploreRecursiveEdge, _ => none
  | .exploreAll next, _ => some next
  | .exploreFields fs, seg => lookupField fs seg
  | .exploreRecursive lim body, seg =>
      match explore body seg with
      | none => none
      | some sub =>
          if hasEdge sub then
            match decLimit lim with
            | some lim2 => some (substEdge (.exploreRecursive lim2 body) sub)
            | none => some (substEdge .matcher sub)
          else some sub

/-- Child edges of a list node, as (index segment, child) pairs with
slash-path index naming (spec section 4.1, path tokens). -/
def listChildren (i : Nat) : List Node → List (String × Node)
  | [] => []
  | x :: xs => (toString i, x) :: listChildren (i + 1) xs

/-- Child edges of a node: field entries of a map, indexed elements of
a list, nothing for scalars and links. -/
def nodeChildren : Node → List (String × Node)
  | .map es => es
  | .list xs => listChildren 0 xs
  | _ => []

/-- Modelled from the spec: processing of one child edge by the
Selector Traversal Engine (spec section 4.1): evaluate whether the
selector admits the edge, resolve a link child through the loader
(recording the load, or a per-branch NotFound error that leaves other
branches running), and recurse via the supplied continuation. -/
def childOut (store : Link → Option Node)
    (rec : Selector → List String → Node → WalkOut)
    (sel : Selector) (path : List String) (sc : String × Node) : WalkOut :=
  match explore sel sc.1 with
  | none => WalkOut.empty
  | some sub =>
    match sc.2 with
    | .link l =>
      match store l with
      | some t =>
          let w := rec sub (path ++ [sc.1]) t
          ⟨w.prog, w.errs, (l, t) :: w.loads⟩
      | none => ⟨[], [Err.notFound l], []⟩
    | child => rec sub (path ++ [sc.1]) child

/-- Modelled from the spec: one step of the Selector Traversal Engine
(spec section 4.1): visit the node (emitting one ResponseProgress) and
process its admitted child edges in order. -/
def walkStep (store : Link → Option Node)
    (rec : Selector → List String → Node → WalkOut)
    (sel : Selector) (path : List String) (n : Node) : WalkOut :=
  let rest := ((nodeChildren n).map (childOut store rec sel path)).foldr WalkOut.app WalkOut.empty
  ⟨⟨path, n⟩ :: rest.prog, rest.errs, rest.loads⟩

/-- Modelled from the spec: the Selector Traversal Engine
(spec section 4.1), as a fuel-indexed depth-first walk; the fuel only
bounds the modelled recursion depth and every theorem supplies enough
of it. -/
def walk (store : Link → Option Node) : Nat → Selector → List String → Node → WalkOut
  | 0 => fun _ _ _ => ⟨[], [Err.fuelOut], []⟩
  | fuel + 1 => walkStep store (walk store fuel)

theorem walk_succ (store : Link → Option Node) (fuel : Nat) :
    walk store (fuel + 1) = walkStep store (walk store fuel) := rfl

/-- Slash-delimited rendering of a traversal path (spec section 3,
ResponseProgress path; the empty path renders as the empty string). -/
def pathString : List String → String
  | [] => ""
  | [s] => s
  | s :: rest => s ++ "/" ++ pathString rest

/-- The expected-path update of the round-trip test (source
graphsync_test.go lines 267-281): even entries extend the path by
Parents, odd entries by index 0. -/
def nextExpected (i : Nat) (expected : String) : String :=
  if i % 2 == 0 then (if expected == "" then "Parents" else expected ++ "/Parents")
  else expected ++ "/0"

/-- The alternating-path check of the round-trip test (source
graphsync_test.go lines 267-281) applied to a response list. -/
def checkPaths : Nat → String → List Prog → Bool
  | _, _, [] => true
  | i, expected, r :: rs =>
      (pathString r.path == expected) && checkPaths (i + 1) (nextExpected i expected) rs

/-- Per-node payload of a chain block (source createBlock: a Messages
list holding size random bytes; modelled as size copies of the node
index, so distinct nodes have distinct payloads). -/
def payload (size i : Nat) : List Nat := List.replicate size i

/-- Parent link list of chain node i (source setupBlockChain: the
genesis block has no parents, every other block links its
predecessor). -/
def parentsOf (i : Nat) : List Node := if i = 0 then [] else [.link (i - 1)]

/-- Chain block i (source createBlock): a map with a Parents link list
and a Messages byte payload. -/
def chainNode (size i : Nat) : Node :=
  .map [("Parents", .list (parentsOf i)), ("Messages", .list [.bytes (payload size i)])]

/-- The responder-side store holding the whole chain (source
setupBlockChain builds n blocks via the storer): link i resolves to
chain block i for i below n. -/
def chainLoader (size n : Nat) : Link → Option Node :=
  fun l => if l < n then some (chainNode size l) else none

/-- The store of a peer holding nothing. -/
def emptyStore : Link → Option Node := fun _ => none

/-- Body of the chain selector (source blockChainSelector):
ExploreFields with Parents mapped to ExploreAll of the recursive
edge. -/
def chainBody : Selector :=
  .exploreFields [("Parents", .exploreAll .exploreRecursiveEdge)]

/-- The selector of the chain tests (source blockChainSelector):
recursive exploration of the Parents field with recursion limit equal
to the chain length. -/
def blockChainSelector (n : Nat) : Selector := .exploreRecursive (.depth n) chainBody

/-- The unbounded variant of the chain selector: recursive exploration
of the Parents field with no recursion limit, as the specification's
concrete scenario words it. -/
def unboundedChainSelector : Selector := .exploreRecursive .nolimit chainBody

/-- Expected traversal output for chain node i (two entries per chain
block: the block itself and its Parents list), accumulating path
segments Parents and 0. -/
def chainProg (size : Nat) : List String → Nat → List Prog
  | path, 0 => [⟨path, chainNode size 0⟩, ⟨path ++ ["Parents"], .list []⟩]
  | path, i + 1 =>
      ⟨path, chainNode size (i + 1)⟩ :: ⟨path ++ ["Parents"], .list [.link i]⟩ ::
        chainProg size (path ++ ["Parents", "0"]) i

/-- Blocks loaded while walking down from chain node i + 1 or the
loads below node i: nodes i - 1 down to 0 in that order (for i the
walk starting at node i loads i blocks). -/
def chainLoads (size : Nat) : Nat → List (Link × Node)
  | 0 => []
  | i + 1 => (i, chainNode size i) :: chainLoads size i

/-- A recursion limit that admits at least i + 1 levels below the
current node. -/
def limOK : RecursionLimit → Nat → Prop
  | .nolimit, _ => True
  | .depth d, i => i + 1 ≤ d

theorem walk_emptyList (store : Link → Option Node) (sub : Selector) (p : List String)
    (fuel : Nat) (hf : 1 ≤ fuel) :
    walk store fuel sub p (.list []) = ⟨[⟨p, .list []⟩], [], []⟩ := by
  obtain ⟨f, rfl⟩ : ∃ f, fuel = f + 1 := ⟨fuel - 1, by omega⟩
  simp [walk_succ, walkStep, nodeChildren, listChildren, WalkOut.empty]

theorem walk_bytes (store : Link → Option Node) (sub : Selector) (p : List String)
    (d : List Nat) (fuel : Nat) (hf : 1 ≤ fuel) :
    walk store fuel sub p (.bytes d) = ⟨[⟨p, .bytes d⟩], [], []⟩ := by
  obtain ⟨f, rfl⟩ : ∃ f, fuel = f + 1 := ⟨fuel - 1, by omega⟩
  simp [walk_succ, walkStep, nodeChildren, WalkOut.empty]

theorem explore_chain_parents_nolimit :
    explore (.exploreRecursive .nolimit chainBody) "Parents"
      = some (.exploreAll (.exploreRecursive .nolimit chainBody)) := rfl

theorem explore_chain_parents_depth (d : Nat) (hd : 2 ≤ d) :
    explore (.exploreRecursive (.depth d) chainBody) "Parents"
      = some (.exploreAll (.exploreRecursive (.depth (d - 1)) chainBody)) := by
  have h1 : decLimit (.depth d) = some (.depth (d - 1)) := by
    show (if d < 2 then none else some (RecursionLimit.depth (d - 1))) = _
    rw [if_neg (by omega)]
  simp [explore, chainBody, lookupField, hasEdge, hasEdgeFields, substEdge, substFields, h1]

theorem explore_chain_parents_exhaust (d : Nat) (hd : d < 2) :
    explore (.exploreRecursive (.depth d) chainBody) "Parents"
      = some (.exploreAll .matcher) := by
  have h1 : decLimit (.depth d) = none := by
    show (if d < 2 then none else some (RecursionLimit.depth (d - 1))) = none
    rw [if_pos hd]
  simp [explore, chainBody, lookupField, hasEdge, hasEdgeFields, substEdge, substFields, h1]

theorem explore_chain_messages (lim : RecursionLimit) :
    explore (.exploreRecursive lim chainBody) "Messages" = none := rfl

theorem walkStep_chain0 (size n : Nat) (sel X : Selector)
    (hx : explore sel "Parents" = some (.exploreAll X))
    (hm : explore sel "Messages" = none)
    (path : List String) (f : Nat) (hf : 1 ≤ f) :
    walkStep (chainLoader size n) (walk (chainLoader size n) f) sel path (chainNode size 0)
      = ⟨chainProg size path 0, [], chainLoads size 0⟩ := by
  simp [walkStep, childOut, nodeChildren, chainNode, parentsOf, hx, hm,
        walk_emptyList _ _ _ _ hf, chainProg, chainLoads, WalkOut.app, WalkOut.empty]

theorem walkStep_chainS (size n i : Nat) (hin : i < n) (sel X : Selector)
    (hx : explore sel "Parents" = some (.exploreAll X))
    (hm : explore sel "Messages" = none)
    (path : List String) (f : Nat) (hf : 1 ≤ f)
    (hw : walk (chainLoader size n) (f - 1) X (path ++ ["Parents", "0"]) (chainNode size i)
          = ⟨chainProg size (path ++ ["Parents", "0"]) i, [], chainLoads size i⟩) :
    walkStep (chainLoader size n) (walk (chainLoader size n) f) sel path (chainNode size (i + 1))
      = ⟨chainProg size path (i + 1), [], chainLoads size (i + 1)⟩ := by
  obtain ⟨g, rfl⟩ : ∃ g, f = g + 1 := ⟨f - 1, by omega⟩
  have hload : chainLoader size n i = some (chainNode size i) := by
    show (if i < n then some (chainNode size i) else none) = _
    rw [if_pos hin]
  have hexp : explore (Selector.exploreAll X) "0" = some X := rfl
  rw [Nat.add_sub_cancel] at hw
  simp only [chainNode, parentsOf] at hw
  have hne : ¬ (i + 1 = 0) := Nat.succ_ne_zero i
  simp only [walkStep, childOut, nodeChildren, chainNode, parentsOf, hx, hm, walk_succ,
    listChildren, List.map, List.foldr, WalkOut.app, WalkOut.empty, hexp,
    Nat.add_sub_cancel, if_neg hne, hload,
    show toString (0:Nat) = "0" from rfl,
    List.append_assoc, List.cons_append, List.nil_append, List.append_nil,
    chainProg, chainLoads, hw]

theorem walk_chain (size n : Nat) :
    ∀ (i : Nat), i < n →
    ∀ (lim : RecursionLimit), limOK lim i →
    ∀ (path : List String) (fuel : Nat), 2 * i + 2 ≤ fuel →
    walk (chainLoader size n) fuel (.exploreRecursive lim chainBody) path (chainNode size i)
      = ⟨chainProg size path i, [], chainLoads size i⟩ := by
  intro i
  induction i with
  | zero =>
      intro hin lim hl path fuel hf
      obtain ⟨f, rfl⟩ : ∃ f, fuel = f + 1 := ⟨fuel - 1, by omega⟩
      rw [walk_succ]
      cases lim with
      | nolimit =>
          exact walkStep_chain0 size n _ _ explore_chain_parents_nolimit
            (explore_chain_messages _) path f (by omega)
      | depth d =>
          by_cases hd : d < 2
          · exact walkStep_chain0 size n _ _ (explore_chain_parents_exhaust d hd)
              (explore_chain_messages _) path f (by omega)
          · exact walkStep_chain0 size n _ _ (explore_chain_parents_depth d (by omega))
              (explore_chain_messages _) path f (by omega)
  | succ i ih =>
      intro hin lim hl path fuel hf
      obtain ⟨f, rfl⟩ : ∃ f, fuel = f + 1 := ⟨fuel - 1, by omega⟩
      rw [walk_succ]
      cases lim with
      | nolimit =>
          refine walkStep_chainS size n i (by omega) _ _ explore_chain_parents_nolimit
            (explore_chain_messages _) path f (by omega) ?_
          exact ih (by omega) .nolimit trivial _ (f - 1) (by omega)
      | depth d =>
          have hd2 : i + 2 ≤ d := hl
          refine walkStep_chainS size n i (by omega) _ _
            (explore_chain_parents_depth d (by omega)) (explore_chain_messages _) path f (by omega) ?_
          exact ih (by omega) (.depth (d - 1)) (show i + 1 ≤ d - 1 by omega) _ (f - 1) (by omega)


theorem chainProg_length (size : Nat) :
    ∀ (i : Nat) (path : List String), (chainProg size path i).length = 2 * i + 2 := by
  intro i
  induction i with
  | zero => intro path; simp [chainProg]
  | succ i ih => intro path; simp [chainProg, ih]; omega

theorem pathString_snoc (s : String) :
    ∀ (path : List String),
      pathString (path ++ [s]) = if path.isEmpty then s else pathString path ++ "/" ++ s := by
  intro path
  induction path with
  | nil => simp [pathString]
  | cons x rest ih =>
      cases rest with
      | nil => simp [pathString]
      | cons y t =>
          simp only [List.cons_append, List.append_eq, List.isEmpty_cons, pathString] at ih ⊢
          rw [ih]
          simp [String.append_assoc]

theorem pathString_snoc_ne (path : List String) (s : String) (hs : s ≠ "") :
    pathString (path ++ [s]) ≠ "" := by
  rw [pathString_snoc]
  cases path with
  | nil => simpa using hs
  | cons x rest =>
      simp only [List.isEmpty_cons, if_neg Bool.false_ne_true]
      intro h
      have h2 := congrArg String.length h
      simp [String.length_append] at h2
      exact absurd h2.1.2 (by decide)

theorem nextExpected_even (e : Nat) (he : e % 2 = 0) (path : List String)
    (hp : path = [] ∨ pathString path ≠ "") :
    nextExpected e (pathString path) = pathString (path ++ ["Parents"]) := by
  rcases hp with rfl | hne
  · simp [nextExpected, he, pathString]
  · have hb : (pathString path == "") = false := by simp [hne]
    have hpe : path.isEmpty = false := by
      cases path with
      | nil => simp [pathString] at hne
      | cons x t => rfl
    rw [pathString_snoc, hpe]
    simp [nextExpected, he, hb, String.append_assoc,
      show ("/" ++ "Parents" : String) = "/Parents" from rfl]

theorem nextExpected_odd (e : Nat) (he : e % 2 = 1) (s : String) :
    nextExpected e s = s ++ "/0" := by
  simp [nextExpected, he]

theorem checkPaths_chainProg (size : Nat) :
    ∀ (i : Nat) (path : List String) (e : Nat), e % 2 = 0 →
    (path = [] ∨ pathString path ≠ "") →
    checkPaths e (pathString path) (chainProg size path i) = true := by
  intro i
  induction i with
  | zero =>
      intro path e he hp
      simp only [chainProg, checkPaths]
      rw [nextExpected_even e he path hp]
      simp [checkPaths]
  | succ i ih =>
      intro path e he hp
      have hassoc : path ++ ["Parents", "0"] = (path ++ ["Parents"]) ++ ["0"] := by simp
      have hne2 : pathString (path ++ ["Parents", "0"]) ≠ "" := by
        rw [hassoc]; exact pathString_snoc_ne _ "0" (by decide)
      have hE2 : pathString (path ++ ["Parents"]) ++ "/0" = pathString (path ++ ["Parents", "0"]) := by
        have hie : (path ++ ["Parents"]).isEmpty = false := by simp
        rw [hassoc]
        conv_rhs => rw [pathString_snoc]
        rw [hie]
        simp [String.append_assoc, show ("/" ++ "0" : String) = "/0" from rfl]
      have hIH := ih (path ++ ["Parents", "0"]) (e + 2) (by omega) (Or.inr hne2)
      simp only [chainProg, checkPaths]
      rw [nextExpected_even e he path hp]
      rw [nextExpected_odd (e + 1) (by omega)]
      simp only [beq_self_eq_true, Bool.true_and]
      rw [hE2]
      exact hIH

mutual

/-- Modelled from the spec: the Wire Message Codec's node serializer
(spec sections 2 and 6): a preorder token stream with length-prefixed
lists and maps. -/
def encodeN : Node → List Token
  | .bytes d => [.tbytes d]
  | .link l => [.tlink l]
  | .list xs => .tlist xs.length :: encodeL xs
  | .map es => .tmap es.length :: encodeM es

def encodeL : List Node → List Token
  | [] => []
  | x :: xs => encodeN x ++ encodeL xs

def encodeM : List (String × Node) → List Token
  | [] => []
  | (k, v) :: es => .tkey k :: (encodeN v ++ encodeM es)

end

/-- Decode a length-prefixed run of list elements, given a decoder for
one element. -/
def decodeListF (dec : List Token → Option (Node × List Token)) :
    Nat → List Token → Option (List Node × List Token)
  | 0, r => some ([], r)
  | c + 1, r =>
      match dec r with
      | some (n, r1) =>
          match decodeListF dec c r1 with
          | some (xs, r2) => some (n :: xs, r2)
          | none => none
      | none => none

/-- Decode a length-prefixed run of map entries, given a decoder for
one value. -/
def decodeMapF (dec : List Token → Option (Node × List Token)) :
    Nat → List Token → Option (List (String × Node) × List Token)
  | 0, r => some ([], r)
  | c + 1, .tkey k :: r =>
      match dec r with
      | some (n, r1) =>
          match decodeMapF dec c r1 with
          | some (es, r2) => some ((k, n) :: es, r2)
          | none => none
      | none => none
  | _ + 1, _ => none

/-- One layer of the wire decoder. -/
def decodeStep (dec : List Token → Option (Node × List Token)) :
    List Token → Option (Node × List Token)
  | .tbytes d :: r => some (.bytes d, r)
  | .tlink l :: r => some (.link l, r)
  | .tlist c :: r =>
      match decodeListF dec c r with
      | some (xs, r1) => some (.list xs, r1)
      | none => none
  | .tmap c :: r =>
      match decodeMapF dec c r with
      | some (es, r1) => some (.map es, r1)
      | none => none
  | _ => none

/-- Fuel-indexed wire decoder; the fuel bounds nesting depth. -/
def decodeN : Nat → List Token → Option (Node × List Token)
  | 0 => fun _ => none
  | f + 1 => decodeStep (decodeN f)

/-- Modelled from the spec: the Wire Message Codec's node
deserializer (DecodeNode); the stream length always dominates the
nesting depth, so it serves as fuel. -/
def decodeWire (w : List Token) : Option Node :=
  match decodeN w.length w with
  | some (n, []) => some n
  | _ => none

mutual

/-- Nesting depth of a node (used only to justify fuel bounds). -/
def depthN : Node → Nat
  | .bytes _ => 1
  | .link _ => 1
  | .list xs => depthL xs + 1
  | .map es => depthM es + 1

def depthL : List Node → Nat
  | [] => 0
  | x :: xs => max (depthN x) (depthL xs)

def depthM : List (String × Node) → Nat
  | [] => 0
  | (_, v) :: es => max (depthN v) (depthM es)

end

theorem depthN_pos (n : Node) : 1 ≤ depthN n := by
  cases n <;> simp [depthN]

theorem decodeListF_encodeL (f : Nat)
    (IH : ∀ (n : Node), depthN n ≤ f → ∀ (rest : List Token),
      decodeN f (encodeN n ++ rest) = some (n, rest)) :
    ∀ (xs : List Node), depthL xs ≤ f →
    ∀ (rest : List Token), decodeListF (decodeN f) xs.length (encodeL xs ++ rest) = some (xs, rest) := by
  intro xs
  induction xs with
  | nil => intro h rest; simp [encodeL, decodeListF]
  | cons x t ih =>
      intro h rest
      rw [depthL] at h
      have hx : depthN x ≤ f := le_trans (le_max_left _ _) h
      have ht : depthL t ≤ f := le_trans (le_max_right _ _) h
      simp only [encodeL, List.length_cons, List.append_eq, List.append_assoc, decodeListF,
        IH x hx (encodeL t ++ rest), ih ht rest]

theorem decodeMapF_encodeM (f : Nat)
    (IH : ∀ (n : Node), depthN n ≤ f → ∀ (rest : List Token),
      decodeN f (encodeN n ++ rest) = some (n, rest)) :
    ∀ (es : List (String × Node)), depthM es ≤ f →
    ∀ (rest : List Token), decodeMapF (decodeN f) es.length (encodeM es ++ rest) = some (es, rest) := by
  intro es
  induction es with
  | nil => intro h rest; simp [encodeM, decodeMapF]
  | cons kv t ih =>
      intro h rest
      obtain ⟨k, v⟩ := kv
      rw [depthM] at h
      have hv : depthN v ≤ f := le_trans (le_max_left _ _) h
      have ht : depthM t ≤ f := le_trans (le_max_right _ _) h
      simp only [encodeM, List.length_cons, List.cons_append, List.append_eq, List.append_assoc,
        decodeMapF, IH v hv (encodeM t ++ rest), ih ht rest]

theorem decodeN_encodeN :
    ∀ (f : Nat) (n : Node), depthN n ≤ f →
    ∀ (rest : List Token), decodeN f (encodeN n ++ rest) = some (n, rest) := by
  intro f
  induction f with
  | zero => intro n hn; have := depthN_pos n; omega
  | succ f ihf =>
      intro n hn rest
      match n with
      | .bytes d => simp [encodeN, decodeN, decodeStep]
      | .link l => simp [encodeN, decodeN, decodeStep]
      | .list xs =>
          rw [depthN] at hn
          have hl := decodeListF_encodeL f (fun m hm r => ihf m hm r) xs (by omega) rest
          simp [encodeN, decodeN, decodeStep, hl]
      | .map es =>
          rw [depthN] at hn
          have hm := decodeMapF_encodeM f (fun m h r => ihf m h r) es (by omega) rest
          simp [encodeN, decodeN, decodeStep, hm]

theorem depthL_le_encodeL (f : Nat)
    (IH : ∀ (n : Node), depthN n ≤ f → depthN n ≤ (encodeN n).length) :
    ∀ (xs : List Node), depthL xs ≤ f → depthL xs ≤ (encodeL xs).length := by
  intro xs
  induction xs with
  | nil => intro h; simp [depthL, encodeL]
  | cons x t ih =>
      intro h
      rw [depthL] at h ⊢
      have hx : depthN x ≤ f := le_trans (le_max_left _ _) h
      have ht : depthL t ≤ f := le_trans (le_max_right _ _) h
      have h1 := IH x hx
      have h2 := ih ht
      simp only [encodeL, List.length_append]
      omega

theorem depthM_le_encodeM (f : Nat)
    (IH : ∀ (n : Node), depthN n ≤ f → depthN n ≤ (encodeN n).length) :
    ∀ (es : List (String × Node)), depthM es ≤ f → depthM es ≤ (encodeM es).length := by
  intro es
  induction es with
  | nil => intro h; simp [depthM, encodeM]
  | cons kv t ih =>
      intro h
      obtain ⟨k, v⟩ := kv
      rw [depthM] at h ⊢
      have hv : depthN v ≤ f := le_trans (le_max_left _ _) h
      have ht : depthM t ≤ f := le_trans (le_max_right _ _) h
      have h1 := IH v hv
      have h2 := ih ht
      simp only [encodeM, List.length_cons, List.length_append]
      omega

theorem depth_le_encode_aux :
    ∀ (f : Nat) (n : Node), depthN n ≤ f → depthN n ≤ (encodeN n).length := by
  intro f
  induction f with
  | zero => intro n hn; have := depthN_pos n; omega
  | succ f ihf =>
      intro n hn
      match n with
      | .bytes d => simp [depthN, encodeN]
      | .link l => simp [depthN, encodeN]
      | .list xs =>
          rw [depthN] at hn ⊢
          have := depthL_le_encodeL f (fun m hm => ihf m hm) xs (by omega)
          simp only [encodeN, List.length_cons]
          omega
      | .map es =>
          rw [depthN] at hn ⊢
          have := depthM_le_encodeM f (fun m hm => ihf m hm) es (by omega)
          simp only [encodeN, List.length_cons]
          omega

theorem depth_le_encode_length (n : Node) : depthN n ≤ (encodeN n).length :=
  depth_le_encode_aux (depthN n) n le_rfl

theorem decodeWire_encodeN (n : Node) : decodeWire (encodeN n) = some n := by
  have h := decodeN_encodeN (encodeN n).length n (depth_le_encode_length n) []
  rw [List.append_nil] at h
  simp [decodeWire, h]

/-- Modelled from the spec: the recursion-limit clause of a selector
node. -/
def limitNode : RecursionLimit → Node
  | .nolimit => .bytes []
  | .depth d => .bytes [d]

/-- Parse a recursion-limit clause. -/
def parseLimit : Node → Option RecursionLimit
  | .bytes [] => some .nolimit
  | .bytes [d] => some (.depth d)
  | _ => none

mutual

/-- Modelled from the spec: render a selector as the DAG node that
travels inside the request record (spec section 3: a Selector is an
immutable, serializable traversal specification, a DAG node in its
own right, built by the selector spec builder in the source tests). -/
def selectorToNode : Selector → Node
  | .matcher => .map [("M", .map [])]
  | .exploreAll next => .map [("a", selectorToNode next)]
  | .exploreFields fs => .map [("f", .map (fieldsToNodes fs))]
  | .exploreRecursive lim body =>
      .map [("R", .map [("l", limitNode lim), ("b", selectorToNode body)])]
  | .exploreRecursiveEdge => .map [("e", .map [])]

def fieldsToNodes : List (String × Selector) → List (String × Node)
  | [] => []
  | (k, v) :: fs => (k, selectorToNode v) :: fieldsToNodes fs

end

/-- Parse the field clauses of an exploreFields selector node. -/
def parseFieldsF (ps : Node → Option Selector) :
    List (String × Node) → Option (List (String × Selector))
  | [] => some []
  | (k, v) :: fs =>
      match ps v with
      | some s =>
          match parseFieldsF ps fs with
          | some t => some ((k, s) :: t)
          | none => none
      | none => none

/-- One layer of the selector parser (ParseSelector): recognize the
clause kind by its key and parse subclauses via the supplied
continuation. -/
def parseStep (ps : Node → Option Selector) (n : Node) : Option Selector :=
  match n with
  | .map [(k, v)] =>
      if k == "M" then
        match v with
        | .map [] => some .matcher
        | _ => none
      else if k == "e" then
        match v with
        | .map [] => some .exploreRecursiveEdge
        | _ => none
      else if k == "a" then
        match ps v with
        | some s => some (.exploreAll s)
        | none => none
      else if k == "f" then
        match v with
        | .map fs =>
            match parseFieldsF ps fs with
            | some t => some (.exploreFields t)
            | none => none
        | _ => none
      else if k == "R" then
        match v with
        | .map [("l", ln), ("b", body)] =>
            match parseLimit ln with
            | some lim =>
                match ps body with
                | some s => some (.exploreRecursive lim s)
                | none => none
            | none => none
        | _ => none
      else none
  | _ => none

/-- Modelled from the spec: the fuel-indexed selector parser
(ParseSelector, spec section 3: a selector node is parsed once into an
executable traversal program); the fuel bounds clause nesting. -/
def parseSelF : Nat → Node → Option Selector
  | 0 => fun _ => none
  | f + 1 => parseStep (parseSelF f)

mutual

/-- Clause-nesting depth of a selector (used only for fuel bounds). -/
def sdepth : Selector → Nat
  | .matcher => 1
  | .exploreRecursiveEdge => 1
  | .exploreAll next => sdepth next + 1
  | .exploreFields fs => sdepthF fs + 1
  | .exploreRecursive _ body => sdepth body + 1

def sdepthF : List (String × Selector) → Nat
  | [] => 0
  | (_, v) :: fs => max (sdepth v) (sdepthF fs)

end

theorem parseFieldsF_toNodes (f : Nat)
    (IH : ∀ (s : Selector), sdepth s ≤ f → parseSelF f (selectorToNode s) = some s) :
    ∀ (fs : List (String × Selector)), sdepthF fs ≤ f →
    parseFieldsF (parseSelF f) (fieldsToNodes fs) = some fs := by
  intro fs
  induction fs with
  | nil => intro h; simp [fieldsToNodes, parseFieldsF]
  | cons kv t ih =>
      intro h
      obtain ⟨k, v⟩ := kv
      rw [sdepthF] at h
      have hv : sdepth v ≤ f := le_trans (le_max_left _ _) h
      have ht : sdepthF t ≤ f := le_trans (le_max_right _ _) h
      simp only [fieldsToNodes, parseFieldsF, IH v hv, ih ht]

theorem parseSelF_toNode :
    ∀ (f : Nat) (s : Selector), sdepth s ≤ f → parseSelF f (selectorToNode s) = some s := by
  intro f
  induction f with
  | zero =>
      intro s hs
      exfalso
      cases s <;> simp [sdepth] at hs
  | succ f ihf =>
      intro s hs
      match s with
      | .matcher => simp [selectorToNode, parseSelF, parseStep]
      | .exploreRecursiveEdge => simp [selectorToNode, parseSelF, parseStep]
      | .exploreAll next =>
          rw [sdepth] at hs
          simp [selectorToNode, parseSelF, parseStep, ihf next (by omega)]
      | .exploreFields fs =>
          rw [sdepth] at hs
          have h := parseFieldsF_toNodes f (fun u hu => ihf u hu) fs (by omega)
          simp [selectorToNode, parseSelF, parseStep, h]
      | .exploreRecursive lim body =>
          rw [sdepth] at hs
          have hpl : parseLimit (limitNode lim) = some lim := by
            cases lim <;> rfl
          simp [selectorToNode, parseSelF, parseStep, hpl, ihf body (by omega)]

theorem sdepthF_le_depthM (f : Nat)
    (IH : ∀ (s : Selector), sdepth s ≤ f → sdepth s ≤ depthN (selectorToNode s)) :
    ∀ (fs : List (String × Selector)), sdepthF fs ≤ f →
    sdepthF fs ≤ depthM (fieldsToNodes fs) := by
  intro fs
  induction fs with
  | nil => intro h; simp [sdepthF, fieldsToNodes, depthM]
  | cons kv t ih =>
      intro h
      obtain ⟨k, v⟩ := kv
      rw [sdepthF] at h ⊢
      have hv : sdepth v ≤ f := le_trans (le_max_left _ _) h
      have ht : sdepthF t ≤ f := le_trans (le_max_right _ _) h
      have h1 := IH v hv
      have h2 := ih ht
      simp only [fieldsToNodes, depthM]
      omega

theorem sdepth_le_depth_aux :
    ∀ (f : Nat) (s : Selector), sdepth s ≤ f → sdepth s ≤ depthN (selectorToNode s) := by
  intro f
  induction f with
  | zero =>
      intro s hs
      exfalso
      cases s <;> simp [sdepth] at hs
  | succ f ihf =>
      intro s hs
      match s with
      | .matcher => simp [sdepth, selectorToNode, depthN, depthM]
      | .exploreRecursiveEdge => simp [sdepth, selectorToNode, depthN, depthM]
      | .exploreAll next =>
          rw [sdepth] at hs
          have h := ihf next (by omega)
          rw [sdepth]
          simp only [selectorToNode, depthN, depthM]
          omega
      | .exploreFields fs =>
          rw [sdepth] at hs
          have h := sdepthF_le_depthM f (fun u hu => ihf u hu) fs (by omega)
          rw [sdepth]
          simp only [selectorToNode, depthN, depthM]
          omega
      | .exploreRecursive lim body =>
          rw [sdepth] at hs
          have h := ihf body (by omega)
          rw [sdepth]
          simp only [selectorToNode, depthN, depthM]
          omega

theorem sdepth_le_depthN (s : Selector) : sdepth s ≤ depthN (selectorToNode s) :=
  sdepth_le_depth_aux (sdepth s) s le_rfl

/-- Parsing a rendered selector after a wire round trip succeeds with
fuel equal to the wire length. -/
theorem parse_encoded_selector (s : Selector) :
    parseSelF (encodeN (selectorToNode s)).length (selectorToNode s) = some s := by
  apply parseSelF_toNode
  exact le_trans (sdepth_le_depthN s) (depth_le_encode_length (selectorToNode s))

/-- Lookup of a named extension payload (spec section 4.5: the engine
surfaces Extension(name) lookups to hook callbacks and results). -/
def extLookup : List ExtensionData → String → Option (List Nat)
  | [], _ => none
  | e :: es, name => if e.name == name then some e.data else extLookup es name

/-- Outcome of one RequestReceivedHook invocation (spec section 4.3):
an optional TerminateWithError reason, plus any extension data the
hook attached via SendExtensionData. -/
structure HookResult where
  terminated : Option String
  extensions : List ExtensionData

/-- A responder-side RequestReceivedHook. -/
def RequestHook := Request → HookResult

/-- Modelled from the spec: run the hook chain in registration order;
a rejection short-circuits the remaining hooks (spec section 6, hook
registration). -/
def runHooks : List RequestHook → Request → HookResult
  | [], _ => ⟨none, []⟩
  | h :: hs, req =>
      let r := h req
      match r.terminated with
      | some e => ⟨some e, r.extensions⟩
      | none =>
          let rest := runHooks hs req
          ⟨rest.terminated, r.extensions ++ rest.extensions⟩

/-- First-occurrence deduplication of outgoing blocks by link, with a
seen-link accumulator. -/
def dedupGo (seen : List Link) : List (Link × Node) → List (Link × Node)
  | [] => []
  | b :: bs => if b.1 ∈ seen then dedupGo seen bs else b :: dedupGo (b.1 :: seen) bs

/-- Modelled from the spec: the per-RequestID outgoing block
deduplication of the responder (spec section 4.3: a block already
sent for this RequestID is not resent). -/
def dedupBlocks (bs : List (Link × Node)) : List (Link × Node) := dedupGo [] bs

/-- Attach extension data to the first response frame only
(spec section 4.3, extension obligations). -/
def attachFirst (exts : List ExtensionData) : List Frame → List Frame
  | [] => []
  | f :: fs => ⟨f.requestID, f.status, exts ++ f.extensions, f.blocks⟩ :: fs

/-- Modelled from the spec: the Response Manager (spec section 4.3).
Run the hook chain; a termination emits a single RequestFailed frame
and performs no traversal; otherwise decode and parse the selector and
load the root (failures are hard), run the traversal, and stream each
needed block exactly once (deduplicated per RequestID) in
PartialResponse frames that echo the RequestID, closing with
RequestCompletedFull, or RequestCompletedPartial after branch errors.
Hook extension data rides on the first frame only. -/
def respond (store : Link → Option Node) (hooks : List RequestHook) (req : Request)
    (fuel : Nat) : List Frame :=
  let hr := runHooks hooks req
  match hr.terminated with
  | some _ => [⟨req.id, .failed, hr.extensions, []⟩]
  | none =>
    match decodeWire req.encodedSelector with
    | none => [⟨req.id, .failed, hr.extensions, []⟩]
    | some selNode =>
      match parseSelF req.encodedSelector.length selNode with
      | none => [⟨req.id, .failed, hr.extensions, []⟩]
      | some sel =>
        match store req.root with
        | none => [⟨req.id, .failed, hr.extensions, []⟩]
        | some rootNode =>
          let w := walk store fuel sel [] rootNode
          let blocks := dedupBlocks ((req.root, rootNode) :: w.loads)
          let dataFrames := blocks.map (fun b => Frame.mk req.id .partialResponse [] [b])
          let finalStatus := if w.errs.isEmpty then ResponseStatus.completedFull
                             else ResponseStatus.partiallyCompleted
          attachFirst hr.extensions (dataFrames ++ [⟨req.id, finalStatus, [], []⟩])

/-- All block records across the response Messages of one request. -/
def sentBlocks (frames : List Frame) : List (Link × Node) :=
  (frames.map Frame.blocks).flatten

/-- What the requestor's ResponseReceivedHook observes for a named
extension: it runs once per incoming response frame and looks the
name up (spec sections 4.2 and 4.5). -/
def observedExtensions (name : String) (frames : List Frame) : List (List Nat) :=
  frames.filterMap (fun f => extLookup f.extensions name)

/-- Result of one request on the requestor side (spec section 4.2 and
the design note on channel-based streams): the ResponseProgress
entries delivered, the terminal errors delivered on the error stream,
explicit closed markers for both streams, and the requestor's local
block store after the run. -/
structure ReqResult where
  progress : List Prog
  terminalErrors : List String
  errorsClosed : Bool
  progressClosed : Bool
  store : List (Link × Node)

/-- Insert a block into a store keyed by link, keeping the first
binding of a link. -/
def storePut (st : List (Link × Node)) (b : Link × Node) : List (Link × Node) :=
  if st.any (fun e => e.1 == b.1) then st else st ++ [b]

/-- Persist a run of fetched blocks in arrival order. -/
def foldPut (st : List (Link × Node)) (bs : List (Link × Node)) : List (Link × Node) :=
  bs.foldl storePut st

/-- The requestor-side mixed loader (spec section 4.2): check the
local block store first, fetch from the peer on a miss. -/
def combineStores (localStore peer : Link → Option Node) : Link → Option Node :=
  fun l =>
    match localStore l with
    | some n => some n
    | none => peer l

/-- Modelled from the spec: the Request Manager round trip
(spec sections 4.2 and 7): the responder's hook chain gates the
request (a rejection delivers exactly one terminal error and closes
both streams with zero progress); an undecodable selector or an
unreachable root is a hard failure with one terminal error; otherwise
the local traversal runs over the mixed local-first loader, every
block fetched from the peer is persisted through the Storer, the
progress stream delivers the traversal output in visitation order,
and the error stream closes empty - per-branch traversal errors are
absorbed into partial completion, not surfaced as stream errors. -/
def runRequest (hooks : List RequestHook) (localStore peer : Link → Option Node)
    (req : Request) (fuel : Nat) : ReqResult :=
  match (runHooks hooks req).terminated with
  | some reason => ⟨[], [reason], true, true, []⟩
  | none =>
    match decodeWire req.encodedSelector with
    | none => ⟨[], ["invalid selector"], true, true, []⟩
    | some selNode =>
      match parseSelF req.encodedSelector.length selNode with
      | none => ⟨[], ["invalid selector"], true, true, []⟩
      | some sel =>
        match combineStores localStore peer req.root with
        | none => ⟨[], ["root not found"], true, true, []⟩
        | some rootNode =>
          let w := walk (combineStores localStore peer) fuel sel [] rootNode
          let fetched := ((req.root, rootNode) :: w.loads).filter
            (fun b => (localStore b.1).isNone)
          ⟨w.prog, [], true, true, foldPut [] fetched⟩

/-- Build a request record as the public entry point does
(spec section 6): the selector node is encoded into the request. -/
def mkRequest (rid : Nat) (root : Link) (sel : Selector) (priority : Nat)
    (exts : List ExtensionData) : Request :=
  ⟨rid, root, encodeN (selectorToNode sel), priority, exts⟩

/-- The chain round-trip request (source TestGraphsyncRoundTrip):
request the chain tip with the chain selector. -/
def chainReq (n : Nat) : Request := mkRequest 0 (n - 1) (blockChainSelector n) 0 []

/-- The chain round-trip run (source TestGraphsyncRoundTrip): an
empty-store requestor asks a peer holding the whole chain for the tip. -/
def chainRun (n size fuel : Nat) : ReqResult :=
  runRequest [] emptyStore (chainLoader size n) (chainReq n) fuel

theorem combineStores_empty (peer : Link → Option Node) :
    combineStores emptyStore peer = peer := rfl

theorem foldPut_nodup :
    ∀ (bs : List (Link × Node)) (acc : List (Link × Node)),
      (bs.map Prod.fst).Nodup →
      (∀ b ∈ bs, acc.any (fun e => e.1 == b.1) = false) →
      foldPut acc bs = acc ++ bs := by
  intro bs
  induction bs with
  | nil => intro acc h1 h2; simp [foldPut]
  | cons b t ih =>
      intro acc h1 h2
      have hb : acc.any (fun e => e.1 == b.1) = false := h2 b (List.mem_cons_self b t)
      have hstep : storePut acc b = acc ++ [b] := by
        simp [storePut, hb]
      rw [List.map_cons, List.nodup_cons] at h1
      have hkeys : (t.map Prod.fst).Nodup := h1.2
      have hnotin : b.1 ∉ t.map Prod.fst := h1.1
      have h2t : ∀ x ∈ t, (acc ++ [b]).any (fun e => e.1 == x.1) = false := by
        intro x hx
        rw [List.any_append]
        have hx1 : acc.any (fun e => e.1 == x.1) = false := h2 x (List.mem_cons_of_mem b hx)
        have hx2 : [b].any (fun e => e.1 == x.1) = false := by
          simp only [List.any_cons, List.any_nil, Bool.or_false]
          have : b.1 ≠ x.1 := by
            intro hcontra
            exact hnotin (hcontra ▸ List.mem_map_of_mem Prod.fst hx)
          simpa using this
        rw [hx1, hx2]
        rfl
      have := ih (acc ++ [b]) hkeys h2t
      calc foldPut acc (b :: t) = foldPut (storePut acc b) t := rfl
    _ = foldPut (acc ++ [b]) t := by rw [hstep]
    _ = (acc ++ [b]) ++ t := this
    _ = acc ++ b :: t := by simp

theorem chainLoads_keys (size : Nat) :
    ∀ (i : Nat), (chainLoads size i).map Prod.fst = (List.range i).reverse := by
  intro i
  induction i with
  | zero => simp [chainLoads]
  | succ i ih => simp [chainLoads, ih, List.range_succ]

theorem chainLoads_length (size : Nat) :
    ∀ (i : Nat), (chainLoads size i).length = i := by
  intro i
  induction i with
  | zero => rfl
  | succ i ih => simp [chainLoads, ih]

theorem chainFetched_keys_nodup (size n : Nat) :
    (((n - 1, chainNode size (n - 1)) :: chainLoads size (n - 1)).map Prod.fst).Nodup := by
  simp only [List.map_cons, chainLoads_keys]
  rw [List.nodup_cons]
  constructor
  · simp
  · simp [List.nodup_reverse, List.nodup_range]

theorem chainRun_eq (n size fuel : Nat) (hn : 1 ≤ n) (hf : 2 * n ≤ fuel) :
    chainRun n size fuel =
      ⟨chainProg size [] (n - 1), [], true, true,
        (n - 1, chainNode size (n - 1)) :: chainLoads size (n - 1)⟩ := by
  have hdec : decodeWire (chainReq n).encodedSelector = some (selectorToNode (blockChainSelector n)) :=
    decodeWire_encodeN (selectorToNode (blockChainSelector n))
  have hpar : parseSelF (chainReq n).encodedSelector.length (selectorToNode (blockChainSelector n))
      = some (blockChainSelector n) := parse_encoded_selector (blockChainSelector n)
  have hroot : combineStores emptyStore (chainLoader size n) (n - 1)
      = some (chainNode size (n - 1)) := by
    rw [combineStores_empty]
    show (if n - 1 < n then some (chainNode size (n - 1)) else none) = _
    rw [if_pos (by omega)]
  have hwalk : walk (combineStores emptyStore (chainLoader size n)) fuel (blockChainSelector n) []
      (chainNode size (n - 1))
      = ⟨chainProg size [] (n - 1), [], chainLoads size (n - 1)⟩ := by
    rw [combineStores_empty]
    exact walk_chain size n (n - 1) (by omega) (.depth n) (show n - 1 + 1 ≤ n by omega) [] fuel (by omega)
  have hfilter : ∀ (bs : List (Link × Node)),
      bs.filter (fun b => (emptyStore b.1).isNone) = bs := by
    intro bs
    simp [emptyStore]
  have hput : foldPut [] ((n - 1, chainNode size (n - 1)) :: chainLoads size (n - 1))
      = (n - 1, chainNode size (n - 1)) :: chainLoads size (n - 1) := by
    have := foldPut_nodup ((n - 1, chainNode size (n - 1)) :: chainLoads size (n - 1)) []
      (chainFetched_keys_nodup size n) (by intro b hb; rfl)
    simpa using this
  simp only [chainRun, runRequest, runHooks, hdec, hpar, hroot, hwalk, hfilter,
    show (chainReq n).root = n - 1 from rfl, hput]

theorem chainLoader_lookup (size n i : Nat) (h : i < n) :
    chainLoader size n i = some (chainNode size i) := by
  show (if i < n then some (chainNode size i) else none) = _
  rw [if_pos h]

theorem dedupGo_nodup :
    ∀ (bs : List (Link × Node)) (seen : List Link),
      ((dedupGo seen bs).map Prod.fst).Nodup ∧
        ∀ l ∈ (dedupGo seen bs).map Prod.fst, l ∉ seen := by
  intro bs
  induction bs with
  | nil => intro seen; simp [dedupGo]
  | cons b t ih =>
      intro seen
      by_cases hmem : b.1 ∈ seen
      · simpa [dedupGo, hmem] using ih seen
      · have h2 := ih (b.1 :: seen)
        simp only [dedupGo, if_neg hmem, List.map_cons]
        constructor
        · rw [List.nodup_cons]
          refine ⟨fun hin => ?_, h2.1⟩
          exact absurd (List.mem_cons_self b.1 seen) (h2.2 b.1 hin |> fun h => h)
        · intro l hl
          rcases List.mem_cons.mp hl with rfl | hl2
          · exact hmem
          · intro hseen
            exact h2.2 l hl2 (List.mem_cons_of_mem _ hseen)

theorem dedupGo_of_nodup :
    ∀ (bs : List (Link × Node)) (seen : List Link),
      (bs.map Prod.fst).Nodup → (∀ b ∈ bs, b.1 ∉ seen) → dedupGo seen bs = bs := by
  intro bs
  induction bs with
  | nil => intro seen h1 h2; rfl
  | cons b t ih =>
      intro seen h1 h2
      rw [List.map_cons, List.nodup_cons] at h1
      have hmem : b.1 ∉ seen := h2 b (List.mem_cons_self b t)
      rw [dedupGo, if_neg hmem]
      congr 1
      refine ih (b.1 :: seen) h1.2 ?_
      intro x hx
      intro hcontra
      rcases List.mem_cons.mp hcontra with heq | hseen
      · exact h1.1 (heq ▸ List.mem_map_of_mem Prod.fst hx)
      · exact h2 x (List.mem_cons_of_mem b hx) hseen

theorem sentBlocks_cons (f : Frame) (fs : List Frame) :
    sentBlocks (f :: fs) = f.blocks ++ sentBlocks fs := rfl

theorem sentBlocks_attachFirst (exts : List ExtensionData) (fs : List Frame) :
    sentBlocks (attachFirst exts fs) = sentBlocks fs := by
  cases fs <;> simp [attachFirst, sentBlocks]

theorem sentBlocks_append (a b : List Frame) :
    sentBlocks (a ++ b) = sentBlocks a ++ sentBlocks b := by
  simp [sentBlocks]

theorem sentBlocks_dataFrames (rid : Nat) (bs : List (Link × Node)) :
    sentBlocks (bs.map (fun b => Frame.mk rid .partialResponse [] [b])) = bs := by
  induction bs with
  | nil => rfl
  | cons b t ih => rw [List.map_cons, sentBlocks_cons, ih]; rfl

theorem attachFirst_requestID (exts : List ExtensionData) (gs : List Frame) (rid : Nat)
    (h : ∀ g ∈ gs, g.requestID = rid) :
    ∀ f ∈ attachFirst exts gs, f.requestID = rid := by
  cases gs with
  | nil => intro f hf; simp [attachFirst] at hf
  | cons g t =>
      intro f hf
      simp only [attachFirst, List.mem_cons] at hf
      rcases hf with rfl | hf
      · exact h g (List.mem_cons_self g t)
      · exact h f (List.mem_cons_of_mem g hf)

theorem respond_chain (n size fuel : Nat) (hn : 1 ≤ n) (hf : 2 * n ≤ fuel) :
    respond (chainLoader size n) [] (chainReq n) fuel =
      attachFirst []
        ((((n - 1, chainNode size (n - 1)) :: chainLoads size (n - 1)).map
            (fun b => Frame.mk 0 .partialResponse [] [b])) ++
          [⟨0, .completedFull, [], []⟩]) := by
  have hdec : decodeWire (chainReq n).encodedSelector
      = some (selectorToNode (blockChainSelector n)) :=
    decodeWire_encodeN (selectorToNode (blockChainSelector n))
  have hpar : parseSelF (chainReq n).encodedSelector.length (selectorToNode (blockChainSelector n))
      = some (blockChainSelector n) := parse_encoded_selector (blockChainSelector n)
  have hroot : chainLoader size n (n - 1) = some (chainNode size (n - 1)) :=
    chainLoader_lookup size n (n - 1) (by omega)
  have hwalk : walk (chainLoader size n) fuel (blockChainSelector n) [] (chainNode size (n - 1))
      = ⟨chainProg size [] (n - 1), [], chainLoads size (n - 1)⟩ :=
    walk_chain size n (n - 1) (by omega) (.depth n) (show n - 1 + 1 ≤ n by omega) [] fuel (by omega)
  have hdedup : dedupBlocks ((n - 1, chainNode size (n - 1)) :: chainLoads size (n - 1))
      = (n - 1, chainNode size (n - 1)) :: chainLoads size (n - 1) := by
    exact dedupGo_of_nodup _ [] (chainFetched_keys_nodup size n) (by intro b hb; simp)
  simp only [respond, runHooks, hdec, hpar, show (chainReq n).root = n - 1 from rfl, hroot,
    hwalk, hdedup, show (chainReq n).id = 0 from rfl, List.isEmpty_nil, if_pos]

theorem respond_blocks_nodup (store : Link → Option Node) (hooks : List RequestHook)
    (req : Request) (fuel : Nat) :
    ((sentBlocks (respond store hooks req fuel)).map Prod.fst).Nodup := by
  simp only [respond]
  cases h1 : (runHooks hooks req).terminated with
  | some e => simp only [h1]; simp [sentBlocks]
  | none =>
    simp only [h1]
    cases h2 : decodeWire req.encodedSelector with
    | none => simp only [h2]; simp [sentBlocks]
    | some selNode =>
      simp only [h2]
      cases h3 : parseSelF req.encodedSelector.length selNode with
      | none => simp only [h3]; simp [sentBlocks]
      | some sel =>
        simp only [h3]
        cases h4 : store req.root with
        | none => simp only [h4]; simp [sentBlocks]
        | some rootNode =>
          simp only [h4]
          rw [sentBlocks_attachFirst, sentBlocks_append, sentBlocks_dataFrames]
          have hfin : sentBlocks [(⟨req.id,
              if (walk store fuel sel [] rootNode).errs.isEmpty then ResponseStatus.completedFull
              else ResponseStatus.partiallyCompleted, [], []⟩ : Frame)] = [] := rfl
          rw [hfin, List.append_nil]
          exact (dedupGo_nodup _ []).1

theorem respond_echoes_id (store : Link → Option Node) (hooks : List RequestHook)
    (req : Request) (fuel : Nat) :
    ∀ f ∈ respond store hooks req fuel, f.requestID = req.id := by
  simp only [respond]
  cases h1 : (runHooks hooks req).terminated with
  | some e => simp only [h1]; intro f hf; simp at hf; rw [hf]
  | none =>
    simp only [h1]
    cases h2 : decodeWire req.encodedSelector with
    | none => simp only [h2]; intro f hf; simp at hf; rw [hf]
    | some selNode =>
      simp only [h2]
      cases h3 : parseSelF req.encodedSelector.length selNode with
      | none => simp only [h3]; intro f hf; simp at hf; rw [hf]
      | some sel =>
        simp only [h3]
        cases h4 : store req.root with
        | none => simp only [h4]; intro f hf; simp at hf; rw [hf]
        | some rootNode =>
          simp only [h4]
          apply attachFirst_requestID
          intro g hg
          rcases List.mem_append.mp hg with hg1 | hg2
          · rcases List.mem_map.mp hg1 with ⟨b, hb, rfl⟩
            rfl
          · rcases List.mem_singleton.mp hg2 with rfl
            rfl

theorem extLookup_self (name : String) (data : List Nat) :
    extLookup [⟨name, data⟩] name = some data := by
  simp [extLookup]

theorem observed_attachFirst (name : String) (data : List Nat) (gs : List Frame)
    (hall : ∀ g ∈ gs, g.extensions = []) (hne : gs ≠ []) :
    observedExtensions name (attachFirst [⟨name, data⟩] gs) = [data] := by
  cases gs with
  | nil => exact absurd rfl hne
  | cons g t =>
      have hg : g.extensions = [] := hall g (List.mem_cons_self g t)
      have ht : t.filterMap (fun f => extLookup f.extensions name) = [] := by
        rw [List.filterMap_eq_nil_iff]
        intro f hf
        rw [hall f (List.mem_cons_of_mem g hf)]
        rfl
      simp only [attachFirst, observedExtensions, List.filterMap_cons, hg, List.append_nil,
        extLookup_self, ht]

theorem attachFirst_tail_ext (exts : List ExtensionData) (gs : List Frame)
    (hall : ∀ g ∈ gs, g.extensions = []) (name : String) :
    ∀ f ∈ (attachFirst exts gs).tail, extLookup f.extensions name = none := by
  cases gs with
  | nil => intro f hf; simp [attachFirst] at hf
  | cons g t =>
      intro f hf
      simp only [attachFirst, List.tail_cons] at hf
      rw [hall f (List.mem_cons_of_mem g hf)]
      rfl

mutual

/-- Modelled from the spec: the encoded size measure of a node used by
message batching (spec section 4.4, maximum encoded size); raw byte
payloads dominate it. -/
def nodeSize : Node → Nat
  | .bytes d => d.length + 1
  | .link _ => 1
  | .list xs => nodesSize xs + 1
  | .map es => entriesSize es + 1

def nodesSize : List Node → Nat
  | [] => 0
  | x :: xs => nodeSize x + nodesSize xs

def entriesSize : List (String × Node) → Nat
  | [] => 0
  | (_, v) :: es => nodeSize v + entriesSize es + 1

end

/-- Encoded size of one block record (identifier plus node bytes). -/
def blockSize (b : Link × Node) : Nat := nodeSize b.2 + 1

/-- Encoded size of the block batch of one wire Message. -/
def batchSize (m : List (Link × Node)) : Nat := (m.map blockSize).sum

/-- Modelled from the spec: the Message Queue flush loop
(spec section 4.4): drain pending blocks in order into Messages no
larger than the configured maximum encoded size, starting a new
Message when the next block would overflow the current one; no block
is ever dropped or truncated, and a block that alone exceeds the
maximum goes out as a singleton Message (the spec leaves that policy
open). The accumulator holds the current batch reversed. -/
def splitGo (maxSize : Nat) : List (Link × Node) → List (Link × Node) → List (List (Link × Node))
  | [], cur => if cur.isEmpty then [] else [cur.reverse]
  | b :: bs, cur =>
      if cur.isEmpty then splitGo maxSize bs [b]
      else if batchSize cur + blockSize b ≤ maxSize then splitGo maxSize bs (b :: cur)
      else cur.reverse :: splitGo maxSize bs [b]

/-- Split a pending block backlog into size-bounded Messages. -/
def splitBlocks (maxSize : Nat) (bs : List (Link × Node)) : List (List (Link × Node)) :=
  splitGo maxSize bs []

theorem splitGo_flatten (maxSize : Nat) :
    ∀ (bs cur : List (Link × Node)), (splitGo maxSize bs cur).flatten = cur.reverse ++ bs := by
  intro bs
  induction bs with
  | nil =>
      intro cur
      cases cur <;> simp [splitGo]
  | cons b t ih =>
      intro cur
      cases cur with
      | nil => simp [splitGo, ih]
      | cons c cs =>
          by_cases hfit : batchSize (c :: cs) + blockSize b ≤ maxSize
          · simp [splitGo, hfit, ih]
          · simp [splitGo, hfit, ih]

theorem batchSize_reverse (m : List (Link × Node)) : batchSize m.reverse = batchSize m := by
  simp [batchSize, List.sum_reverse]

theorem splitGo_bounded (maxSize : Nat) :
    ∀ (bs cur : List (Link × Node)),
      (∀ b ∈ bs, blockSize b ≤ maxSize) → batchSize cur ≤ maxSize →
      ∀ m ∈ splitGo maxSize bs cur, batchSize m ≤ maxSize := by
  intro bs
  induction bs with
  | nil =>
      intro cur hbs hcur m hm
      cases cur with
      | nil => simp [splitGo] at hm
      | cons c cs =>
          simp [splitGo] at hm
          rw [hm, show cs.reverse ++ [c] = (c :: cs).reverse from (List.reverse_cons c cs).symm,
            batchSize_reverse]
          exact hcur
  | cons b t ih =>
      intro cur hbs hcur m hm
      have hb : blockSize b ≤ maxSize := hbs b (List.mem_cons_self b t)
      have hbs2 : ∀ x ∈ t, blockSize x ≤ maxSize := fun x hx => hbs x (List.mem_cons_of_mem b hx)
      have hone : batchSize [b] ≤ maxSize := by simpa [batchSize] using hb
      cases cur with
      | nil =>
          simp only [splitGo, List.isEmpty_nil, if_true] at hm
          exact ih [b] hbs2 hone m hm
      | cons c cs =>
          by_cases hfit : batchSize (c :: cs) + blockSize b ≤ maxSize
          · simp only [splitGo, List.isEmpty_cons, if_neg Bool.false_ne_true, if_pos hfit] at hm
            refine ih (b :: c :: cs) hbs2 ?_ m hm
            simp only [batchSize, List.map_cons, List.sum_cons] at hfit hcur ⊢
            omega
          · simp only [splitGo, List.isEmpty_cons, if_neg Bool.false_ne_true, if_neg hfit] at hm
            rcases List.mem_cons.mp hm with rfl | hm2
            · rw [batchSize_reverse]; exact hcur
            · exact ih [b] hbs2 hone m hm2

/-- Fixed-size chunker state machine (source TestUnixFSFetch uses a
size splitter): c counts remaining slots in the current chunk, acc
holds the current chunk reversed. -/
def chunkGo (sz : Nat) : Nat → List Nat → List Nat → List (List Nat)
  | _, acc, [] => if acc.isEmpty then [] else [acc.reverse]
  | 0, acc, x :: xs => acc.reverse :: chunkGo sz (sz - 1) [x] xs
  | c + 1, acc, x :: xs => chunkGo sz c (x :: acc) xs

/-- Modelled from the test (TestUnixFSFetch): split a file into
chunks of the configured chunk size. -/
def chunk (sz : Nat) (xs : List Nat) : List (List Nat) := chunkGo sz sz [] xs

theorem chunkGo_flatten (sz : Nat) :
    ∀ (xs : List Nat) (c : Nat) (acc : List Nat),
      (chunkGo sz c acc xs).flatten = acc.reverse ++ xs := by
  intro xs
  induction xs with
  | nil =>
      intro c acc
      cases acc <;> simp [chunkGo]
  | cons x t ih =>
      intro c acc
      cases c with
      | zero => simp [chunkGo, ih]
      | succ c => simp [chunkGo, ih]

theorem chunk_flatten (sz : Nat) (xs : List Nat) : (chunk sz xs).flatten = xs := by
  simp [chunk, chunkGo_flatten]

/-- Number of chunks of the imported file. -/
def chunkCount (sz : Nat) (file : List Nat) : Nat := (chunk sz file).length

/-- Modelled from the test (TestUnixFSFetch) and spec section 1: the
responder's store after importing the file as a chunked DAG - leaf
link i holds chunk i, and the root link (chunkCount) holds the list
of leaf links. -/
def starLoader (sz : Nat) (file : List Nat) : Link → Option Node :=
  fun l =>
    if l < chunkCount sz file then some (.bytes ((chunk sz file).getD l []))
    else if l = chunkCount sz file then
      some (.list ((List.range (chunkCount sz file)).map Node.link))
    else none

/-- The selector of the UnixFS test (source graphsync_test.go lines
461-462): unbounded recursive explore-all of the whole DAG. -/
def allSelector : Selector := .exploreRecursive .nolimit (.exploreAll .exploreRecursiveEdge)

/-- Request for the root of the imported file DAG. -/
def starReq (sz : Nat) (file : List Nat) : Request :=
  mkRequest 0 (chunkCount sz file) allSelector 0 []

/-- The UnixFS fetch run (source TestUnixFSFetch): an empty-store
requestor fetches the file DAG from the importing peer. -/
def starRun (sz : Nat) (file : List Nat) (fuel : Nat) : ReqResult :=
  runRequest [] emptyStore (starLoader sz file) (starReq sz file) fuel

/-- Store lookup by link in the requestor's persisted block list. -/
def lookupStore (st : List (Link × Node)) (l : Link) : Option Node :=
  match st.find? (fun e => e.1 == l) with
  | some e => some e.2
  | none => none

/-- Resolve every leaf link of a root node to its byte payload. -/
def collectBytes (st : List (Link × Node)) : List Node → Option (List (List Nat))
  | [] => some []
  | .link l :: cs =>
      match lookupStore st l with
      | some (.bytes d) =>
          match collectBytes st cs with
          | some ds => some (d :: ds)
          | none => none
      | _ => none
  | _ :: _ => none

/-- Modelled from the test (TestUnixFSFetch): reassemble and read the
file back from a store - load the root node, resolve each leaf link,
and concatenate the chunk payloads. -/
def readFile (st : List (Link × Node)) (root : Link) : Option (List Nat) :=
  match lookupStore st root with
  | some (.list cs) =>
      match collectBytes st cs with
      | some ds => some ds.flatten
      | _ => none
  | _ => none

theorem explore_allSelector (seg : String) :
    explore allSelector seg = some allSelector := rfl

/-- Expected traversal output below the star root: one entry per leaf,
in index order. -/
def starProg (sz : Nat) (file : List Nat) (path : List String) :
    Nat → List Link → List Prog
  | _, [] => []
  | j, l :: t =>
      ⟨path ++ [toString j], .bytes ((chunk sz file).getD l [])⟩ ::
        starProg sz file path (j + 1) t

theorem starFold (sz : Nat) (file : List Nat) (f : Nat) (hf : 1 ≤ f) (path : List String) :
    ∀ (ls : List Link) (j : Nat), (∀ l ∈ ls, l < chunkCount sz file) →
      ((listChildren j (ls.map Node.link)).map
        (childOut (starLoader sz file) (walk (starLoader sz file) f) allSelector path)).foldr
          WalkOut.app WalkOut.empty
      = ⟨starProg sz file path j ls, [],
          ls.map (fun l => (l, .bytes ((chunk sz file).getD l [])))⟩ := by
  intro ls
  induction ls with
  | nil => intro j h; rfl
  | cons l t ih =>
      intro j h
      have hl : l < chunkCount sz file := h l (List.mem_cons_self l t)
      have hload : starLoader sz file l = some (.bytes ((chunk sz file).getD l [])) := by
        show (if l < chunkCount sz file then _ else _) = _
        rw [if_pos hl]
      have hleaf := walk_bytes (starLoader sz file) allSelector (path ++ [toString j])
        ((chunk sz file).getD l []) f hf
      simp only [List.map_cons, listChildren, List.foldr, ih (j + 1)
        (fun x hx => h x (List.mem_cons_of_mem l hx)),
        childOut, explore_allSelector, hload, hleaf, WalkOut.app, starProg]
      rfl


theorem map_fst_pairs (g : Nat → Node) :
    ∀ (ls : List Nat), (ls.map (fun l => (l, g l))).map Prod.fst = ls := by
  intro ls
  induction ls with
  | nil => rfl
  | cons a t ih => simp only [List.map_cons, ih]

theorem walk_starRoot (sz : Nat) (file : List Nat) (fuel : Nat) (hf : 2 ≤ fuel) :
    walk (starLoader sz file) fuel allSelector []
      (.list ((List.range (chunkCount sz file)).map Node.link))
      = ⟨⟨[], .list ((List.range (chunkCount sz file)).map Node.link)⟩ ::
           starProg sz file [] 0 (List.range (chunkCount sz file)), [],
         (List.range (chunkCount sz file)).map
           (fun l => (l, .bytes ((chunk sz file).getD l [])))⟩ := by
  obtain ⟨f, rfl⟩ : ∃ f, fuel = f + 1 := ⟨fuel - 1, by omega⟩
  rw [walk_succ]
  have hfold := starFold sz file f (by omega) [] (List.range (chunkCount sz file)) 0
    (fun l hl => List.mem_range.mp hl)
  simp only [walkStep, nodeChildren, hfold]

theorem starRun_eq (sz : Nat) (file : List Nat) (fuel : Nat) (hf : 2 ≤ fuel) :
    starRun sz file fuel =
      ⟨⟨[], .list ((List.range (chunkCount sz file)).map Node.link)⟩ ::
          starProg sz file [] 0 (List.range (chunkCount sz file)), [], true, true,
        (chunkCount sz file, .list ((List.range (chunkCount sz file)).map Node.link)) ::
          (List.range (chunkCount sz file)).map
            (fun l => (l, .bytes ((chunk sz file).getD l [])))⟩ := by
  have hdec : decodeWire (starReq sz file).encodedSelector
      = some (selectorToNode allSelector) := decodeWire_encodeN (selectorToNode allSelector)
  have hpar : parseSelF (starReq sz file).encodedSelector.length (selectorToNode allSelector)
      = some allSelector := parse_encoded_selector allSelector
  have hroot : combineStores emptyStore (starLoader sz file) (chunkCount sz file)
      = some (.list ((List.range (chunkCount sz file)).map Node.link)) := by
    rw [combineStores_empty]
    show (if chunkCount sz file < chunkCount sz file then _
          else if chunkCount sz file = chunkCount sz file then _ else _) = _
    rw [if_neg (by omega), if_pos rfl]
  have hwalk := walk_starRoot sz file fuel hf
  have hfilter : ∀ (bs : List (Link × Node)),
      bs.filter (fun b => (emptyStore b.1).isNone) = bs := by
    intro bs; simp [emptyStore]
  have hnodup : (((chunkCount sz file, Node.list ((List.range (chunkCount sz file)).map Node.link)) ::
      (List.range (chunkCount sz file)).map
        (fun l => (l, Node.bytes ((chunk sz file).getD l [])))).map Prod.fst).Nodup := by
    rw [List.map_cons, List.nodup_cons, map_fst_pairs]
    exact ⟨by simp, List.nodup_range _⟩
  have hput := foldPut_nodup ((chunkCount sz file,
      Node.list ((List.range (chunkCount sz file)).map Node.link)) ::
      (List.range (chunkCount sz file)).map
        (fun l => (l, Node.bytes ((chunk sz file).getD l [])))) [] hnodup (by intro b hb; rfl)
  simp only [starRun, runRequest, runHooks, hdec, hpar,
    show (starReq sz file).root = chunkCount sz file from rfl, hroot, combineStores_empty,
    hwalk, hfilter]
  rw [List.nil_append] at hput
  rw [hput]

theorem lookupStore_head (st : List (Link × Node)) (l : Link) (n : Node) :
    lookupStore ((l, n) :: st) l = some n := by
  simp [lookupStore, List.find?_cons_of_pos]

theorem lookupStore_skip (st : List (Link × Node)) (l k : Link) (n : Node) (h : k ≠ l) :
    lookupStore ((k, n) :: st) l = lookupStore st l := by
  have : ((k, n).1 == l) = false := by simpa using h
  simp [lookupStore, List.find?_cons_of_neg, this]

theorem lookupStore_leaves (g : Link → Node) :
    ∀ (m j l : Nat), j ≤ l → l < j + m →
      lookupStore ((List.range' j m).map (fun i => (i, g i))) l = some (g l) := by
  intro m
  induction m with
  | zero => intro j l h1 h2; omega
  | succ m ih =>
      intro j l h1 h2
      rw [List.range'_succ, List.map_cons]
      by_cases hj : j = l
      · subst hj; exact lookupStore_head _ _ _
      · rw [lookupStore_skip _ _ _ _ hj]
        exact ih (j + 1) l (by omega) (by omega)

theorem collectBytes_links (st : List (Link × Node)) (g : Link → List Nat) :
    ∀ (ls : List Link), (∀ l ∈ ls, lookupStore st l = some (.bytes (g l))) →
      collectBytes st (ls.map Node.link) = some (ls.map g) := by
  intro ls
  induction ls with
  | nil => intro h; rfl
  | cons l t ih =>
      intro h
      have hl := h l (List.mem_cons_self l t)
      have ht := ih (fun x hx => h x (List.mem_cons_of_mem l hx))
      simp only [List.map_cons, collectBytes, hl, ht]

theorem map_getD_range (d : List Nat) :
    ∀ (cs : List (List Nat)), (List.range cs.length).map (fun l => cs.getD l d) = cs := by
  intro cs
  induction cs with
  | nil => rfl
  | cons c t ih =>
      rw [List.length_cons, List.range_succ_eq_map, List.map_cons, List.map_map]
      have hcomp : ((fun l => (c :: t).getD l d) ∘ Nat.succ) = fun l => t.getD l d := by
        funext x
        rfl
      rw [hcomp, ih]
      rfl

theorem readFile_star (sz : Nat) (file : List Nat) :
    readFile ((chunkCount sz file, .list ((List.range (chunkCount sz file)).map Node.link)) ::
        (List.range (chunkCount sz file)).map
          (fun l => (l, Node.bytes ((chunk sz file).getD l []))))
      (chunkCount sz file) = some file := by
  have hroot := lookupStore_head ((List.range (chunkCount sz file)).map
    (fun l => (l, Node.bytes ((chunk sz file).getD l [])))) (chunkCount sz file)
    (.list ((List.range (chunkCount sz file)).map Node.link))
  have hleaf : ∀ l ∈ List.range (chunkCount sz file),
      lookupStore ((chunkCount sz file, Node.list ((List.range (chunkCount sz file)).map Node.link)) ::
        (List.range (chunkCount sz file)).map
          (fun i => (i, Node.bytes ((chunk sz file).getD i []))))
        l = some (.bytes ((chunk sz file).getD l [])) := by
    intro l hl
    have hlk := List.mem_range.mp hl
    have hne : chunkCount sz file ≠ l := by omega
    rw [lookupStore_skip _ _ _ _ hne, List.range_eq_range']
    exact lookupStore_leaves (fun i => Node.bytes ((chunk sz file).getD i []))
      (chunkCount sz file) 0 l (by omega) (by omega)
  have hcollect := collectBytes_links _ (fun l => (chunk sz file).getD l [])
    (List.range (chunkCount sz file)) hleaf
  simp only [readFile, hroot, hcollect]
  rw [show List.range (chunkCount sz file) = List.range (chunk sz file).length from rfl,
    map_getD_range, chunk_flatten]

/-- The chain request with the unbounded selector variant, as the
specification's concrete scenario words it. -/
def chainReqU (n : Nat) : Request := mkRequest 0 (n - 1) unboundedChainSelector 0 []

/-- The chain round-trip run under the unbounded selector variant. -/
def chainRunU (n size fuel : Nat) : ReqResult :=
  runRequest [] emptyStore (chainLoader size n) (chainReqU n) fuel

theorem chainRunU_eq (n size fuel : Nat) (hn : 1 ≤ n) (hf : 2 * n ≤ fuel) :
    chainRunU n size fuel =
      ⟨chainProg size [] (n - 1), [], true, true,
        (n - 1, chainNode size (n - 1)) :: chainLoads size (n - 1)⟩ := by
  have hdec : decodeWire (chainReqU n).encodedSelector
      = some (selectorToNode unboundedChainSelector) :=
    decodeWire_encodeN (selectorToNode unboundedChainSelector)
  have hpar : parseSelF (chainReqU n).encodedSelector.length (selectorToNode unboundedChainSelector)
      = some unboundedChainSelector := parse_encoded_selector unboundedChainSelector
  have hroot : combineStores emptyStore (chainLoader size n) (n - 1)
      = some (chainNode size (n - 1)) := by
    rw [combineStores_empty]
    exact chainLoader_lookup size n (n - 1) (by omega)
  have hwalk : walk (combineStores emptyStore (chainLoader size n)) fuel unboundedChainSelector []
      (chainNode size (n - 1))
      = ⟨chainProg size [] (n - 1), [], chainLoads size (n - 1)⟩ := by
    rw [combineStores_empty]
    exact walk_chain size n (n - 1) (by omega) .nolimit trivial [] fuel (by omega)
  have hfilter : ∀ (bs : List (Link × Node)),
      bs.filter (fun b => (emptyStore b.1).isNone) = bs := by
    intro bs
    simp [emptyStore]
  have hput : foldPut [] ((n - 1, chainNode size (n - 1)) :: chainLoads size (n - 1))
      = (n - 1, chainNode size (n - 1)) :: chainLoads size (n - 1) := by
    have := foldPut_nodup ((n - 1, chainNode size (n - 1)) :: chainLoads size (n - 1)) []
      (chainFetched_keys_nodup size n) (by intro b hb; rfl)
    simpa using this
  simp only [chainRunU, runRequest, runHooks, hdec, hpar, hroot, hwalk, hfilter,
    show (chainReqU n).root = n - 1 from rfl, hput]

theorem frames_exts_nil (rid : Nat) (bs : List (Link × Node)) (st : ResponseStatus) :
    ∀ g ∈ bs.map (fun b => Frame.mk rid .partialResponse [] [b]) ++
        [(⟨rid, st, [], []⟩ : Frame)], g.extensions = [] := by
  intro g hg
  rcases List.mem_append.mp hg with hg1 | hg2
  · rcases List.mem_map.mp hg1 with ⟨b, hb, rfl⟩
    rfl
  · rcases List.mem_singleton.mp hg2 with rfl
    rfl

/-- C1: for a linear blockchain DAG of 100 linked nodes with a Parents
link list, requesting the tip under the unbounded recursive explore of
the Parents field from a peer holding all 100 nodes yields exactly 200
ResponseProgress entries whose paths follow the strictly alternating
pattern of the round-trip test, with zero errors on the error stream;
the run coincides with the one under the source's depth-100 selector. -/
theorem claim1_blockchain_roundtrip :
    (chainRunU 100 100 202).progress.length = 200 ∧
    checkPaths 0 "" (chainRunU 100 100 202).progress = true ∧
    (chainRunU 100 100 202).terminalErrors = [] ∧
    chainRunU 100 100 202 = chainRun 100 100 202 := by
  have h1 := chainRunU_eq 100 100 202 (by omega) (by omega)
  have h2 := chainRun_eq 100 100 202 (by omega) (by omega)
  rw [h1, h2]
  refine ⟨?_, ?_, rfl, rfl⟩
  · show (chainProg 100 [] 99).length = 200
    rw [chainProg_length]
  · show checkPaths 0 "" (chainProg 100 [] 99) = true
    exact checkPaths_chainProg 100 99 [] 0 rfl (Or.inl rfl)

/-- C2: for every request whose responder-side RequestReceivedHook
calls TerminateWithError, the requestor's error stream delivers
exactly one non-nil error and closes, the progress stream closes with
zero entries, and the responder performs no traversal, sending a
single RequestFailed frame with no blocks. -/
theorem claim2_hook_rejection (store localStore peer : Link → Option Node)
    (hooks : List RequestHook) (req : Request) (fuel : Nat) (reason : String)
    (hterm : (runHooks hooks req).terminated = some reason) :
    runRequest hooks localStore peer req fuel = ⟨[], [reason], true, true, []⟩ ∧
    respond store hooks req fuel
      = [⟨req.id, .failed, (runHooks hooks req).extensions, []⟩] := by
  constructor
  · simp only [runRequest, hterm]
  · simp only [respond, hterm]

theorem claim2_witness :
    runRequest [fun _ => ⟨some "denied", []⟩] emptyStore emptyStore
        (mkRequest 5 0 .matcher 0 []) 3 = ⟨[], ["denied"], true, true, []⟩ ∧
    respond emptyStore [fun _ => ⟨some "denied", []⟩] (mkRequest 5 0 .matcher 0 []) 3
      = [⟨5, .failed, [], []⟩] :=
  claim2_hook_rejection emptyStore emptyStore emptyStore
    [fun _ => ⟨some "denied", []⟩] (mkRequest 5 0 .matcher 0 []) 3 "denied" rfl

/-- C3: extension data attached by the responder via SendExtensionData
is observable on the requestor through Extension(name) on the
ResponseReceivedHook, byte-identical and exactly once - it rides the
first response frame of the request only, never a later frame. -/
theorem claim3_extension_roundtrip (store : Link → Option Node) (req : Request)
    (fuel : Nat) (name : String) (data : List Nat) (hooks : List RequestHook)
    (hh : runHooks hooks req = ⟨none, [⟨name, data⟩]⟩) :
    observedExtensions name (respond store hooks req fuel) = [data] ∧
    ∀ f ∈ (respond store hooks req fuel).tail, extLookup f.extensions name = none := by
  have hterm : (runHooks hooks req).terminated = none := by rw [hh]
  have hexts : (runHooks hooks req).extensions = [⟨name, data⟩] := by rw [hh]
  simp only [respond, hterm, hexts]
  cases h2 : decodeWire req.encodedSelector with
  | none =>
      simp only [h2]
      refine ⟨by simp [observedExtensions, extLookup_self], ?_⟩
      intro f hf
      simp at hf
  | some selNode =>
      simp only [h2]
      cases h3 : parseSelF req.encodedSelector.length selNode with
      | none =>
          simp only [h3]
          refine ⟨by simp [observedExtensions, extLookup_self], ?_⟩
          intro f hf
          simp at hf
      | some sel =>
          simp only [h3]
          cases h4 : store req.root with
          | none =>
              simp only [h4]
              refine ⟨by simp [observedExtensions, extLookup_self], ?_⟩
              intro f hf
              simp at hf
          | some rootNode =>
              simp only [h4]
              exact ⟨observed_attachFirst name data _ (frames_exts_nil _ _ _) (by simp),
                attachFirst_tail_ext _ _ (frames_exts_nil _ _ _) name⟩

theorem claim3_witness :
    observedExtensions "AppleSauce/McGee"
      (respond emptyStore [fun _ => ⟨none, [⟨"AppleSauce/McGee", [1, 2, 3]⟩]⟩]
        (mkRequest 7 0 .matcher 0 []) 1) = [[1, 2, 3]] :=
  (claim3_extension_roundtrip emptyStore (mkRequest 7 0 .matcher 0 []) 1
    "AppleSauce/McGee" [1, 2, 3] [fun _ => ⟨none, [⟨"AppleSauce/McGee", [1, 2, 3]⟩]⟩] rfl).1

/-- C4: pending blocks whose individual encoded size fits the
configured maximum are flushed into wire Messages that never exceed
that maximum, splitting oversized batches across Messages without
dropping or truncating any block and preserving order; and the chain
transfer of n nodes of any size still delivers all 2n traversal
results in order with zero errors. -/
theorem claim4_frame_splitting (maxSize : Nat) (pending : List (Link × Node))
    (hbound : ∀ b ∈ pending, blockSize b ≤ maxSize)
    (n size fuel : Nat) (hn : 1 ≤ n) (hf : 2 * n ≤ fuel) :
    (splitBlocks maxSize pending).flatten = pending ∧
    (∀ m ∈ splitBlocks maxSize pending, batchSize m ≤ maxSize) ∧
    (chainRun n size fuel).progress.length = 2 * n ∧
    (chainRun n size fuel).terminalErrors = [] := by
  refine ⟨?_, ?_, ?_, ?_⟩
  · simpa using splitGo_flatten maxSize pending []
  · intro m hm
    exact splitGo_bounded maxSize pending [] hbound (by simp [batchSize]) m hm
  · rw [chainRun_eq n size fuel hn hf]
    show (chainProg size [] (n - 1)).length = 2 * n
    rw [chainProg_length]
    omega
  · rw [chainRun_eq n size fuel hn hf]

theorem claim4_witness :
    (splitBlocks 3 [(0, .bytes [7]), (1, .bytes [8]), (2, .bytes [9])]).flatten
      = [(0, .bytes [7]), (1, .bytes [8]), (2, .bytes [9])] :=
  (claim4_frame_splitting 3 [(0, .bytes [7]), (1, .bytes [8]), (2, .bytes [9])]
    (by decide) 1 0 2 (by omega) (by omega)).1

/-- C5: for every request the responder sends each block at most once
per RequestID (the sent block records carry pairwise distinct
identifiers), and serving the 100-node chain yields exactly 100 block
records across all response Messages of the request. -/
theorem claim5_block_dedup (store : Link → Option Node) (hooks : List RequestHook)
    (req : Request) (fuel : Nat) :
    ((sentBlocks (respond store hooks req fuel)).map Prod.fst).Nodup ∧
    (sentBlocks (respond (chainLoader 100 100) [] (chainReq 100) 202)).length = 100 := by
  constructor
  · exact respond_blocks_nodup store hooks req fuel
  · rw [respond_chain 100 100 202 (by omega) (by omega), sentBlocks_attachFirst,
      sentBlocks_append, sentBlocks_dataFrames]
    have hfin : sentBlocks [(⟨0, .completedFull, [], []⟩ : Frame)] = [] := rfl
    rw [hfin, List.append_nil, List.length_cons, chainLoads_length]

/-- C6: the requestor's error stream always closes after at most one
terminal error, the progress stream always closes, and a request that
delivered traversal output (completed with no whole-request error)
closes its error stream having delivered zero values. -/
theorem claim6_terminal_error_discipline (hooks : List RequestHook)
    (localStore peer : Link → Option Node) (req : Request) (fuel : Nat) :
    (runRequest hooks localStore peer req fuel).errorsClosed = true ∧
    (runRequest hooks localStore peer req fuel).progressClosed = true ∧
    (runRequest hooks localStore peer req fuel).terminalErrors.length ≤ 1 ∧
    ((runRequest hooks localStore peer req fuel).progress ≠ [] →
      (runRequest hooks localStore peer req fuel).terminalErrors = []) := by
  simp only [runRequest]
  cases h1 : (runHooks hooks req).terminated with
  | some e =>
      simp only [h1]
      simp
  | none =>
      simp only [h1]
      cases h2 : decodeWire req.encodedSelector with
      | none =>
          simp only [h2]
          simp
      | some selNode =>
          simp only [h2]
          cases h3 : parseSelF req.encodedSelector.length selNode with
          | none =>
              simp only [h3]
              simp
          | some sel =>
              simp only [h3]
              cases h4 : combineStores localStore peer req.root with
              | none =>
                  simp only [h4]
                  simp
              | some rootNode =>
                  simp only [h4]
                  simp

theorem claim6_witness : (chainRun 1 1 2).terminalErrors = [] :=
  (claim6_terminal_error_discipline [] emptyStore (chainLoader 1 1) (chainReq 1) 2).2.2.2
    (by show (chainRun 1 1 2).progress ≠ []
        rw [chainRun_eq 1 1 2 le_rfl (by omega)]
        simp [chainProg])

/-- C7: every response frame the responder emits for a request carries
the RequestID the requestor chose: the RequestID is echoed unchanged
on every response related to the request. -/
theorem claim7_request_id_echo (store : Link → Option Node) (hooks : List RequestHook)
    (req : Request) (fuel : Nat) :
    ∀ f ∈ respond store hooks req fuel, f.requestID = req.id :=
  respond_echoes_id store hooks req fuel

theorem claim7_witness :
    (Frame.mk 5 .failed [] []).requestID = (mkRequest 5 0 .matcher 0 []).id :=
  claim7_request_id_echo emptyStore [] (mkRequest 5 0 .matcher 0 []) 1
    (Frame.mk 5 .failed [] [])
    (by rw [show respond emptyStore [] (mkRequest 5 0 .matcher 0 []) 1
          = [Frame.mk 5 .failed [] []] from rfl]
        exact List.mem_singleton.mpr rfl)

/-- C8: the encoded selector carried in every request record decodes
on the receiving side to a node equal to the selector node passed to
Request, and the decoded node parses back into the original traversal
program - serialize then deserialize is the identity on selectors. -/
theorem claim8_selector_roundtrip (rid root priority : Nat) (exts : List ExtensionData)
    (s : Selector) :
    decodeWire (mkRequest rid root s priority exts).encodedSelector
      = some (selectorToNode s) ∧
    parseSelF (mkRequest rid root s priority exts).encodedSelector.length (selectorToNode s)
      = some s :=
  ⟨decodeWire_encodeN (selectorToNode s), parse_encoded_selector s⟩

/-- C9: importing a file as a chunked DAG on the responder, fetching
its root with the unbounded explore-all selector, and reading the file
back from the requestor's store yields a byte sequence identical to
the original file, with zero errors on the error stream. -/
theorem claim9_unixfs_roundtrip (sz : Nat) (file : List Nat) (fuel : Nat) (hf : 2 ≤ fuel) :
    readFile (starRun sz file fuel).store (chunkCount sz file) = some file ∧
    (starRun sz file fuel).terminalErrors = [] := by
  rw [starRun_eq sz file fuel hf]
  exact ⟨readFile_star sz file, rfl⟩

theorem claim9_witness :
    readFile (starRun 2 [1, 2, 3] 2).store (chunkCount 2 [1, 2, 3]) = some [1, 2, 3] ∧
    (starRun 2 [1, 2, 3] 2).terminalErrors = [] :=
  claim9_unixfs_roundtrip 2 [1, 2, 3] 2 (by omega)

/-- C10: after the full chain round trip every block fetched from the
peer has been persisted through the requestor's Storer: starting from
an empty store, the requestor ends with exactly 100 entries, one per
DAG node (the links 99 down to 0, pairwise distinct). -/
theorem claim10_store_persistence :
    (chainRun 100 100 202).store.length = 100 ∧
    ((chainRun 100 100 202).store.map Prod.fst).Nodup ∧
    (chainRun 100 100 202).store.map Prod.fst = (List.range 100).reverse := by
  rw [chainRun_eq 100 100 202 (by omega) (by omega)]
  refine ⟨?_, ?_, ?_⟩
  · show ((99, chainNode 100 99) :: chainLoads 100 99).length = 100
    rw [List.length_cons, chainLoads_length]
  · exact chainFetched_keys_nodup 100 100
  · show ((99, chainNode 100 99) :: chainLoads 100 99).map Prod.fst = (List.range 100).reverse
    rw [List.map_cons, chainLoads_keys]
    rw [show (100 : Nat) = 99 + 1 from rfl, List.range_succ, List.reverse_append]
    rfl

end Graphsync
